import Mathlib

/-!
# Verification of the kinetic-typography renderer

A shallow embedding of the kinetic-typography rendering component
(`KineticTypographyPlayer.tsx`) and of the script post-processing in the
text-generation service, together with proofs of the specification claims.

Conventions of the embedding:
* JavaScript strings are modelled as `List Char`; numbers as `ℚ` (every
  numeric value manipulated by the relevant code paths is exactly
  representable).
* JavaScript `undefined`-able values are modelled as `Option`;
  truthiness tests on numbers compare against `0`, on options against
  `none`.
* Canvas text measurement (`ctx.measureText`) is an environment-supplied
  function, modelled as an explicit parameter
  `measure : ℚ → List Char → ℚ` taking the current font size and the
  text being measured.
* `Math.random()`-driven choices are modelled by explicit natural-number
  parameters reduced modulo the size of the choice set.
-/

/-- Whitespace characters recognised by the embedding of `String.trim` /
`split(/\s+/)` (the ASCII whitespace actually occurring in the data). -/
def isJsWhitespace (c : Char) : Bool :=
  c = ' ' ∨ c = '\t' ∨ c = '\n' ∨ c = '\r'

/-- Embedding of JavaScript `String.prototype.trim`. -/
def jsTrim (s : List Char) : List Char :=
  ((s.dropWhile isJsWhitespace).reverse.dropWhile isJsWhitespace).reverse

/-- Embedding of `Array.prototype.join(' ')`. -/
def joinWithSpace : List (List Char) → List Char
  | [] => []
  | [w] => w
  | w :: ws => w ++ ' ' :: joinWithSpace ws

/-- Embedding of `String.prototype.split(c)` for a single-character
separator (splits at every occurrence, keeping empty pieces, exactly as
in JavaScript). -/
def splitOnChar (sep : Char) : List Char → List (List Char)
  | [] => [[]]
  | c :: rest =>
      let r := splitOnChar sep rest
      if c = sep then [] :: r
      else (c :: r.headD []) :: r.tail

/-- Embedding of `Array.prototype.map((x, i) => ...)`: map with the element
index, starting the index at `k`.  The source always starts at `0`. -/
def mapWithIndex (f : ℕ → α → β) : ℕ → List α → List β
  | _, [] => []
  | i, a :: l => f i a :: mapWithIndex f (i + 1) l

/-- Number of `'*'` characters in a string. -/
def countStars (s : List Char) : ℕ := s.count '*'

/-- A `{text, start, end}` transcript segment (times in seconds).
The `end` field is called `endTime` because `end` is reserved in Lean. -/
structure TranscriptSegment where
  text : List Char
  start : ℚ
  endTime : ℚ
deriving DecidableEq, Repr

/-- Drift-correction time scale, from `animateScript`
(`KineticTypographyPlayer.tsx`, lines 444–459): when an audio duration is
known (and truthy) and differs from the last segment's `end` by more than
`0.5` s, the scale `audioDuration / lastSegmentEnd` is used, but only when
it lies strictly between `0.8` and `1.2`; in every other case the scale is
`1.0`. -/
def computeTimeScale (audioDuration : Option ℚ) (transcriptSegments : List TranscriptSegment) : ℚ :=
  match audioDuration with
  | none => 1
  | some dur =>
    if dur ≠ 0 ∧ transcriptSegments.length > 0 then
      match transcriptSegments.getLast? with
      | none => 1
      | some lastSegment =>
        let lastSegmentEnd := lastSegment.endTime
        if |dur - lastSegmentEnd| > 0.5 then
          let potentialScale := dur / lastSegmentEnd
          if potentialScale > 0.8 ∧ potentialScale < 1.2 then potentialScale else 1
        else 1
    else 1

/-- C1 counterexample instance: last segment ends at 100 s, audio lasts 120 s. -/
def c1Segments : List TranscriptSegment := [{ text := [], start := 0, endTime := 100 }]

/-- Unfolding lemma: the drift-correction scale only depends on the last
segment's `end` and the audio duration. -/
theorem computeTimeScale_unfold_last (dur : ℚ) (pre : List TranscriptSegment)
    (t : List Char) (s e : ℚ) (hd : dur ≠ 0) :
    computeTimeScale (some dur) (pre ++ [{ text := t, start := s, endTime := e }]) =
      (if |dur - e| > 0.5 then
        if dur / e > 0.8 ∧ dur / e < 1.2 then dur / e else 1
      else 1) := by
  unfold computeTimeScale
  rw [List.getLast?_concat]
  simp [hd]

/-- C1 (counterexample): the claim asserts inclusive bounds `[0.8, 1.2]`, so
with `lastSegmentEnd = 100` and `trueAudioDuration = 120` (ratio exactly
`1.2`, difference `20 > 0.5`) it predicts `timeScale = 1.2`; the code uses
strict bounds and yields `1.0`. -/
theorem c1_inclusive_bounds_counterexample :
    computeTimeScale (some 120) c1Segments = 1 ∧
    (120 : ℚ) / 100 = 1.2 ∧ |(120 : ℚ) - 100| > 0.5 ∧ (1 : ℚ) ≠ 1.2 := by
  refine ⟨?_, by norm_num, by norm_num, by norm_num⟩
  unfold computeTimeScale c1Segments
  norm_num

/-- C1 (amended): in timestamped mode, when the true audio duration is known
(and nonzero) and differs from the last segment's `end` by more than 0.5 s,
the time scale is `audioDuration / lastSegmentEnd` exactly when that ratio
lies strictly inside `(0.8, 1.2)` (exclusive bounds); at or outside the
bounds, and whenever the difference is at most 0.5 s, the scale is `1.0`.
In particular, for `lastSegmentEnd = 100` s and `trueAudioDuration = 200` s
(ratio `2.0`), the scale is `1.0`. -/
theorem c1_drift_correction_amended :
    (∀ (dur : ℚ) (pre : List TranscriptSegment) (t : List Char) (s e : ℚ),
      |dur - e| > 0.5 → 0.8 < dur / e → dur / e < 1.2 →
      computeTimeScale (some dur) (pre ++ [{ text := t, start := s, endTime := e }]) = dur / e) ∧
    (∀ (dur : ℚ) (pre : List TranscriptSegment) (t : List Char) (s e : ℚ), dur ≠ 0 →
      (dur / e ≤ 0.8 ∨ 1.2 ≤ dur / e) →
      computeTimeScale (some dur) (pre ++ [{ text := t, start := s, endTime := e }]) = 1) ∧
    (∀ (dur : ℚ) (pre : List TranscriptSegment) (t : List Char) (s e : ℚ), dur ≠ 0 →
      |dur - e| ≤ 0.5 →
      computeTimeScale (some dur) (pre ++ [{ text := t, start := s, endTime := e }]) = 1) ∧
    computeTimeScale (some 200) c1Segments = 1 := by
  refine ⟨?_, ?_, ?_, ?_⟩
  · intro dur pre t s e hdiff hlo hhi
    have hd : dur ≠ 0 := by
      intro h
      rw [h] at hlo
      norm_num at hlo
    rw [computeTimeScale_unfold_last dur pre t s e hd]
    rw [if_pos hdiff, if_pos ⟨hlo, hhi⟩]
  · intro dur pre t s e hd hout
    rw [computeTimeScale_unfold_last dur pre t s e hd]
    rcases hout with h | h
    · split
      · rw [if_neg]
        rintro ⟨h1, -⟩
        exact absurd h (not_le.mpr h1)
      · rfl
    · split
      · rw [if_neg]
        rintro ⟨-, h2⟩
        exact absurd h (not_le.mpr h2)
      · rfl
  · intro dur pre t s e hd hdiff
    rw [computeTimeScale_unfold_last dur pre t s e hd]
    rw [if_neg (not_lt.mpr hdiff)]
  · unfold computeTimeScale c1Segments
    norm_num

/-- C1 witness: the spec's in-bounds example, `lastSegmentEnd = 100` s and
`trueAudioDuration = 115` s (ratio 1.15), gets the scale `1.15` applied. -/
theorem c1_drift_correction_amended_witness :
    computeTimeScale (some 115) [{ text := [], start := 0, endTime := 100 }] = 115 / 100 :=
  c1_drift_correction_amended.1 115 [] [] 0 100 (by norm_num) (by norm_num) (by norm_num)

/-- Inline per-character sub-effect names (`TextStyleEffect` in the source). -/
inductive TextStyleEffect | wiggle | glitch | pulse
deriving DecidableEq, Repr

/-- Optional colour / effect override carried by a span. -/
structure SpanStyle where
  color : Option (List Char) := none
  effect : Option TextStyleEffect := none
deriving DecidableEq, Repr

/-- A `{text, style}` span of a styled token (`StyleSpan` in the source). -/
structure StyleSpan where
  text : List Char
  style : SpanStyle
deriving DecidableEq, Repr

/-- A parsed word before layout (`WordToLayout` in the source). -/
structure WordToLayout where
  cleanText : List Char
  isHighlight : Bool
  spans : List StyleSpan
  absoluteStartTime : Option ℚ := none
  duration : Option ℚ := none
deriving DecidableEq, Repr

/-- Embedding of `rawWord.replace(/^\*|\*$/g, '')`: the regex removes one
leading `'*'` (if present) and one trailing `'*'` (if present after the
leading removal), each independently of the other. -/
def stripEmphasisMarkers (s : List Char) : List Char :=
  let s1 := match s with
    | c :: rest => if c = '*' then rest else s
    | [] => s
  match s1.getLast? with
  | some c => if c = '*' then s1.dropLast else s1
  | none => s1

/-- Embedding of the style-spec parser inside `parseStyledWord`
(`params.split('|')` followed by the `forEach` classifying each trimmed
part as one of the three effect names or as a colour; later parts of the
same kind win). -/
def parseStyleParams (params : List Char) : SpanStyle :=
  (splitOnChar '|' params).foldl
    (fun st part =>
      let trimmed := jsTrim part
      if trimmed = "wiggle".toList then { st with effect := some .wiggle }
      else if trimmed = "glitch".toList then { st with effect := some .glitch }
      else if trimmed = "pulse".toList then { st with effect := some .pulse }
      else { st with color := some trimmed })
    {}

/-- One attempted match of the directive regex `\[([^\]]+)\]\(([^)]+)\)` at
the start of the character list: a `'['`, one or more non-`']'` characters,
`']'`, `'('`, one or more non-`')'` characters, `')'`.  Returns the literal
text, the style spec and the remainder of the input. -/
def matchDirective (cs : List Char) : Option (List Char × List Char × List Char) :=
  match cs with
  | [] => none
  | c :: rest =>
    if c = '[' then
      let inner := rest.takeWhile (fun x => x ≠ ']')
      let after := rest.dropWhile (fun x => x ≠ ']')
      match after with
      | a1 :: a2 :: rest2 =>
        if a1 = ']' ∧ a2 = '(' ∧ inner ≠ [] then
          let params := rest2.takeWhile (fun x => x ≠ ')')
          let after2 := rest2.dropWhile (fun x => x ≠ ')')
          match after2 with
          | b :: rest3 => if b = ')' ∧ params ≠ [] then some (inner, params, rest3) else none
          | [] => none
        else none
      | _ => none
    else none

/-- A successful directive match decomposes its input, so the remainder is
at least four characters shorter. -/
theorem matchDirective_length {cs inner params rest : List Char}
    (h : matchDirective cs = some (inner, params, rest)) :
    rest.length + 4 ≤ cs.length := by
  unfold matchDirective at h
  match cs with
  | [] => simp at h
  | c :: tl =>
    simp only at h
    split at h
    · have htl : tl.takeWhile (fun x => x ≠ ']') ++ tl.dropWhile (fun x => x ≠ ']') = tl :=
        List.takeWhile_append_dropWhile _ _
      generalize hinner : tl.takeWhile (fun x => x ≠ ']') = inner0 at h htl
      generalize hafter : tl.dropWhile (fun x => x ≠ ']') = after at h htl
      rcases after with - | ⟨a1, - | ⟨a2, rest2⟩⟩
      · simp at h
      · simp at h
      · simp only at h
        split at h
        · have hr2 : rest2.takeWhile (fun x => x ≠ ')') ++
              rest2.dropWhile (fun x => x ≠ ')') = rest2 :=
            List.takeWhile_append_dropWhile _ _
          generalize hparams : rest2.takeWhile (fun x => x ≠ ')') = params0 at h hr2
          generalize hafter2 : rest2.dropWhile (fun x => x ≠ ')') = after2 at h hr2
          rcases after2 with - | ⟨b, rest3⟩
          · cases h
          · split at h
            · rename_i c1 rest1 heq1
              cases heq1
              split at h
              · simp only [Option.some.injEq, Prod.mk.injEq] at h
                obtain ⟨-, -, hrest⟩ := h
                subst hrest
                have h1 := congrArg List.length htl
                have h2 := congrArg List.length hr2
                simp only [List.length_append, List.length_cons] at h1 h2 ⊢
                omega
              · cases h
            · cases h
        · simp at h
    · simp at h

/-- The scanning loop of `parseStyledWord` (lines 140–168): repeatedly find
the next directive match; plain text between matches becomes an unstyled
span; each directive becomes a styled span.  `pending` is the plain text
accumulated since the last emitted span (`textToParse.substring(lastIndex,
match.index)` in the source).  Returns the span list and the accumulated
`cleanText`.

`fuel` only bounds the number of scanning steps so that the recursion is
structural: every step consumes at least one input character (see
`matchDirective_length`), so the wrapper `parseSpansLoop` supplies
`cs.length` and the zero-fuel case is unreachable (it mirrors the
end-of-input case). -/
def parseSpansLoopF : ℕ → List Char → List Char → List StyleSpan × List Char
  | _, [], pending =>
      (if pending = [] then [] else [{ text := pending, style := {} }], pending)
  | 0, _ :: _, pending =>
      (if pending = [] then [] else [{ text := pending, style := {} }], pending)
  | fuel + 1, c :: rest0, pending =>
      match matchDirective (c :: rest0) with
      | some (inner, params, rest) =>
          let styled : StyleSpan := { text := inner, style := parseStyleParams params }
          let r := parseSpansLoopF fuel rest []
          (if pending = [] then styled :: r.1
           else { text := pending, style := {} } :: styled :: r.1,
           pending ++ inner ++ r.2)
      | none => parseSpansLoopF fuel rest0 (pending ++ [c])

/-- The scanning loop at its actual fuel (`cs.length` steps always
suffice). -/
def parseSpansLoop (cs pending : List Char) : List StyleSpan × List Char :=
  parseSpansLoopF cs.length cs pending

/-- Embedding of `parseStyledWord` (`KineticTypographyPlayer.tsx`, lines
131–174): highlight detection (`startsWith('*') && endsWith('*')`), marker
stripping, directive scanning, and the degenerate no-span case. -/
def parseStyledWord (rawWord : List Char) : WordToLayout :=
  let isHighlight := decide (rawWord.head? = some '*' ∧ rawWord.getLast? = some '*')
  let textToParse := stripEmphasisMarkers rawWord
  let r := parseSpansLoop textToParse []
  if r.1 = [] then
    { cleanText := textToParse, isHighlight := isHighlight,
      spans := [{ text := textToParse, style := {} }] }
  else
    { cleanText := r.2, isHighlight := isHighlight, spans := r.1 }

/-- Invariant of the scanning loop: the concatenation of the emitted span
texts is exactly the accumulated `cleanText`, whatever the fuel. -/
theorem parseSpansLoopF_flatten (fuel : ℕ) :
    ∀ (cs pending : List Char),
      ((parseSpansLoopF fuel cs pending).1.map StyleSpan.text).flatten =
        (parseSpansLoopF fuel cs pending).2 := by
  induction fuel with
  | zero =>
      intro cs pending
      match cs with
      | [] => by_cases hp : pending = [] <;> simp [parseSpansLoopF, hp]
      | c :: rest0 => by_cases hp : pending = [] <;> simp [parseSpansLoopF, hp]
  | succ fuel ih =>
      intro cs pending
      match cs with
      | [] => by_cases hp : pending = [] <;> simp [parseSpansLoopF, hp]
      | c :: rest0 =>
        rcases hmd : matchDirective (c :: rest0) with - | ⟨inner, params, rest⟩
        · simp only [parseSpansLoopF, hmd]
          exact ih rest0 (pending ++ [c])
        · by_cases hp : pending = [] <;>
            simp [parseSpansLoopF, hmd, hp, ih rest, List.append_assoc]

/-- C2: span partition invariant — for every input word, concatenating
`span.text` over the spans of the parsed token, in order, reproduces its
`cleanText` exactly. -/
theorem c2_span_partition (rawWord : List Char) :
    ((parseStyledWord rawWord).spans.map StyleSpan.text).flatten =
      (parseStyledWord rawWord).cleanText := by
  unfold parseStyledWord
  by_cases h : (parseSpansLoop (stripEmphasisMarkers rawWord) []).1 = []
  · simp [h]
  · simpa [h] using parseSpansLoopF_flatten _ (stripEmphasisMarkers rawWord) []

/-- No directive can match when the first character is not `'['`. -/
theorem matchDirective_none_of_ne {c : Char} (rest : List Char) (hc : c ≠ '[') :
    matchDirective (c :: rest) = none := by
  unfold matchDirective
  simp [hc]

/-- On directive-free input (no `'['` anywhere) the scanning loop yields the
whole input as one plain span (or nothing when the input and the pending
text are both empty). -/
theorem parseSpansLoopF_no_directive (fuel : ℕ) :
    ∀ (cs pending : List Char), cs.length ≤ fuel → '[' ∉ cs →
      parseSpansLoopF fuel cs pending =
        (if pending ++ cs = [] then []
         else [{ text := pending ++ cs, style := {} }], pending ++ cs) := by
  induction fuel with
  | zero =>
      intro cs pending hlen hmem
      match cs with
      | [] => simp [parseSpansLoopF]
      | c :: rest0 => simp at hlen
  | succ fuel ih =>
      intro cs pending hlen hmem
      match cs with
      | [] => simp [parseSpansLoopF]
      | c :: rest0 =>
        have hc : c ≠ '[' := by
          intro h
          exact hmem (h ▸ List.mem_cons_self c rest0)
        have hrest : '[' ∉ rest0 := fun h => hmem (List.mem_cons_of_mem c h)
        simp only [parseSpansLoopF, matchDirective_none_of_ne rest0 hc]
        rw [ih rest0 (pending ++ [c])
          (by simp only [List.length_cons] at hlen; omega) hrest]
        simp

/-- Side definition written from the amended C4 claim: remove one leading
asterisk when present and one trailing asterisk when present, each
independently of the other. -/
def specStripIndependent (raw : List Char) : List Char :=
  let afterLead := if raw.head? = some '*' then raw.tail else raw
  if afterLead.getLast? = some '*' then afterLead.dropLast else afterLead

/-- The source's `replace(/^\*|\*$/g, '')` embedding agrees with the
independent two-sided strip. -/
theorem stripEmphasisMarkers_eq_spec (raw : List Char) :
    stripEmphasisMarkers raw = specStripIndependent raw := by
  unfold stripEmphasisMarkers specStripIndependent
  match raw with
  | [] => simp
  | c :: rest =>
    simp only [List.head?_cons, List.tail_cons, Option.some.injEq]
    by_cases hc : c = '*'
    · simp only [if_pos hc]
      match h : rest.getLast? with
      | none => simp [h]
      | some d => by_cases hd : d = '*' <;> simp [h, hd]
    · simp only [if_neg hc]
      match h : (c :: rest).getLast? with
      | none => simp [h]
      | some d => by_cases hd : d = '*' <;> simp [h, hd]

/-- Stripping emphasis markers cannot introduce a `'['`. -/
theorem not_mem_stripEmphasisMarkers {raw : List Char} (h : '[' ∉ raw) :
    '[' ∉ stripEmphasisMarkers raw := by
  unfold stripEmphasisMarkers
  intro hmem
  apply h
  have step1 : ∀ s : List Char, '[' ∈ (match s.getLast? with
      | some c => if c = '*' then s.dropLast else s
      | none => s) → '[' ∈ s := by
    intro s hs
    split at hs
    · split at hs
      · exact (List.dropLast_sublist s).subset hs
      · exact hs
    · exact hs
  match raw with
  | [] => exact step1 [] hmem
  | c :: rest =>
    by_cases hc : c = '*'
    · simp only [if_pos hc] at hmem
      exact List.mem_cons_of_mem c (step1 rest hmem)
    · simp only [if_neg hc] at hmem
      exact step1 (c :: rest) hmem

/-- C4 (counterexample): the raw word `"*foo"` carries an asterisk only on
its left side, yet the parser strips it (`cleanText = "foo"`), while the
claim says the text stays unchanged in that case (`isHighlight = false` is
as claimed). -/
theorem c4_one_sided_strip_counterexample :
    (parseStyledWord "*foo".toList).cleanText = "foo".toList ∧
    (parseStyledWord "*foo".toList).isHighlight = false ∧
    "foo".toList ≠ "*foo".toList := by
  refine ⟨by decide, by decide, by decide⟩

/-- C4 (amended): the parser strips one leading asterisk when present and
one trailing asterisk when present, each independently of the other (so a
word with an asterisk on only one side still loses it), and sets
`isHighlight = true` exactly when the raw word both starts and ends with an
asterisk.  Stated for directive-free words, where `cleanText` is exactly
the stripped text. -/
theorem c4_emphasis_stripping_amended (rawWord : List Char) (hnd : '[' ∉ rawWord) :
    (parseStyledWord rawWord).cleanText = specStripIndependent rawWord ∧
    ((parseStyledWord rawWord).isHighlight = true ↔
      rawWord.head? = some '*' ∧ rawWord.getLast? = some '*') := by
  constructor
  · simp only [parseStyledWord, parseSpansLoop]
    rw [parseSpansLoopF_no_directive _ (stripEmphasisMarkers rawWord) [] le_rfl
      (not_mem_stripEmphasisMarkers hnd)]
    rw [← stripEmphasisMarkers_eq_spec]
    by_cases h : stripEmphasisMarkers rawWord = [] <;> simp [h]
  · simp only [parseStyledWord]
    split <;> simp

/-- C4 witness: the amended theorem applied to the one-sided word `"*foo"`. -/
theorem c4_emphasis_stripping_amended_witness :
    (parseStyledWord "*foo".toList).cleanText = specStripIndependent "*foo".toList ∧
    ((parseStyledWord "*foo".toList).isHighlight = true ↔
      "*foo".toList.head? = some '*' ∧ "*foo".toList.getLast? = some '*') :=
  c4_emphasis_stripping_amended "*foo".toList (by decide)

/-- Embedding of `script.split(/\s+/).filter(w => w)`: the maximal
whitespace-free runs of the input, via an accumulator of the current run
(in reverse). -/
def wordsOfAux : List Char → List Char → List (List Char)
  | [], acc => if acc = [] then [] else [acc.reverse]
  | c :: rest, acc =>
      if isJsWhitespace c then
        if acc = [] then wordsOfAux rest [] else acc.reverse :: wordsOfAux rest []
      else wordsOfAux rest (c :: acc)

/-- The whitespace-delimited words of a string (empty pieces filtered). -/
def wordsOf (s : List Char) : List (List Char) := wordsOfAux s []

/-- Embedding of the `chunk` helper (lines 176–179):
`Array.from({length: Math.ceil(len/size)}, (v,i) => arr.slice(i*size, i*size+size))`.
`(len + size - 1) / size` is `Math.ceil(len / size)` for `size > 0` (the
source only calls it with `WORDS_PER_PAGE = 5`). -/
def chunk (arr : List α) (size : ℕ) : List (List α) :=
  (List.range ((arr.length + size - 1) / size)).map
    (fun i => (arr.drop (i * size)).take size)

/-- Timestamped-mode word timing for one segment (`animateScript`, lines
461–477): drift-adjust the segment bounds, split the segment text into
words, and spread the segment duration evenly over them. -/
def segmentWordsWithTiming (timeScale : ℚ) (seg : TranscriptSegment) : List WordToLayout :=
  let adjustedStart := seg.start * timeScale
  let adjustedEnd := seg.endTime * timeScale
  let segmentDuration := (adjustedEnd - adjustedStart) * 1000
  let segmentWords := (wordsOf seg.text).map parseStyledWord
  let timePerWord := if segmentWords.length > 0 then segmentDuration / (segmentWords.length : ℚ) else 0
  let segmentStartTime := adjustedStart * 1000
  mapWithIndex (fun i word =>
    { word with absoluteStartTime := some (segmentStartTime + (i : ℚ) * timePerWord),
                duration := some timePerWord }) 0 segmentWords

/-- Paged-mode total duration (line 554): the audio duration when one is
attached (and truthy), else the heuristic `max(5000, wordCount * 500)`. -/
def pagedTotalDuration (audioDuration : Option ℚ) (allWords : List WordToLayout) : ℚ :=
  match audioDuration with
  | some d => if d ≠ 0 then d * 1000 else max 5000 ((allWords.length : ℚ) * 500)
  | none => max 5000 ((allWords.length : ℚ) * 500)

/-- Paged-mode per-page duration (line 555). -/
def pagedPageDuration (audioDuration : Option ℚ) (allWords : List WordToLayout) : ℚ :=
  let pages := chunk allWords 5
  if pages.length > 0 then pagedTotalDuration audioDuration allWords / (pages.length : ℚ)
  else pagedTotalDuration audioDuration allWords

/-- Paged-mode word timing for one page (lines 557–565): words are evenly
spaced across 90% of the page's time budget. -/
def pagedWordsWithTiming (pageDuration : ℚ) (pageIndex : ℕ) (pageWords : List WordToLayout) : List WordToLayout :=
  let pageStartTime := (pageIndex : ℚ) * pageDuration
  let timePerWord := if pageWords.length > 0 then (pageDuration * 0.9) / (pageWords.length : ℚ) else 0
  mapWithIndex (fun i word =>
    { word with absoluteStartTime := some (pageStartTime + (i : ℚ) * timePerWord),
                duration := some timePerWord }) 0 pageWords

/-- Paged-mode timeline builder (lines 552–568): pages of
`WORDS_PER_PAGE = 5` words, each allotted an equal share of the total
duration. -/
def pagedPagesWithTiming (audioDuration : Option ℚ) (allWords : List WordToLayout) : List (List WordToLayout) :=
  mapWithIndex (fun pageIndex pageWords =>
    pagedWordsWithTiming (pagedPageDuration audioDuration allWords) pageIndex pageWords)
    0 (chunk allWords 5)

/-- Preview/ambient-mode per-word delay (lines 613–621): the base typing
speed of 250 ms, ×2.5 after sentence-ending punctuation, ×1.8 after a
comma. -/
def previewDelay (word : WordToLayout) : ℚ :=
  let defaultTypeSpeed : ℚ := 250
  match word.cleanText.getLast? with
  | some '.' => defaultTypeSpeed * 2.5
  | some '!' => defaultTypeSpeed * 2.5
  | some '?' => defaultTypeSpeed * 2.5
  | some ',' => defaultTypeSpeed * 1.8
  | _ => defaultTypeSpeed

/-- The cumulative preview word timings (`summaryWordTimings` in the
source, lines 614–622): each word starts at the accumulated time, which
then grows by that word's delay. -/
def summaryWordTimings : ℚ → List WordToLayout → List ℚ
  | _, [] => []
  | cumulativeTime, w :: ws =>
      cumulativeTime :: summaryWordTimings (cumulativeTime + previewDelay w) ws

/-- Preview-mode word timing (lines 631–635). -/
def previewWordsWithTiming (allWords : List WordToLayout) : List WordToLayout :=
  let timings := summaryWordTimings 0 allWords
  mapWithIndex (fun i word =>
    { word with absoluteStartTime := some (timings.getD i 0), duration := some 250 }) 0 allWords

/-- The `absoluteStartTime` sequence of a timed word list (`?? 0`, as read
back by `renderPage`). -/
def startTimes (ws : List WordToLayout) : List ℚ :=
  ws.map (fun w => w.absoluteStartTime.getD 0)

/-- Reading `startTimes` off an index-based timing assignment gives the
index-to-time function itself. -/
theorem startTimes_mapWithIndex {f : ℕ → WordToLayout → WordToLayout} {F : ℕ → ℚ}
    (hf : ∀ i w, (f i w).absoluteStartTime.getD 0 = F i) :
    ∀ (k : ℕ) (l : List WordToLayout),
      startTimes (mapWithIndex f k l) = mapWithIndex (fun i _ => F i) k l := by
  intro k l
  induction l generalizing k with
  | nil => rfl
  | cons a l ih =>
      simp only [mapWithIndex, startTimes, List.map_cons, hf]
      exact congrArg _ (ih (k + 1))

/-- Values produced by an index-based map come from indices at or above the
starting index. -/
theorem mem_mapWithIndex_ge {F : ℕ → ℚ} {x : ℚ} :
    ∀ (k : ℕ) (l : List WordToLayout), x ∈ mapWithIndex (fun i _ => F i) k l →
      ∃ j : ℕ, k ≤ j ∧ x = F j := by
  intro k l
  induction l generalizing k with
  | nil => intro h; cases h
  | cons a l ih =>
      intro h
      rcases List.mem_cons.mp h with h | h
      · exact ⟨k, le_rfl, h⟩
      · obtain ⟨j, hj, hx⟩ := ih (k + 1) h
        exact ⟨j, by omega, hx⟩

/-- A monotone index-to-time function yields a non-decreasing time list. -/
theorem pairwise_mapWithIndex_mono {F : ℕ → ℚ} (hF : Monotone F) :
    ∀ (k : ℕ) (l : List WordToLayout),
      List.Pairwise (· ≤ ·) (mapWithIndex (fun i _ => F i) k l) := by
  intro k l
  induction l generalizing k with
  | nil => exact List.Pairwise.nil
  | cons a l ih =>
      refine List.Pairwise.cons ?_ (ih (k + 1))
      intro x hx
      obtain ⟨j, hj, rfl⟩ := mem_mapWithIndex_ge (k + 1) l hx
      exact hF (by omega)

/-- Timing assignments of the form `start + i * step` with `step ≥ 0` are
non-decreasing in source order. -/
theorem pairwise_startTimes_affine (s t : ℚ) (ht : 0 ≤ t) (d : Option ℚ)
    (k : ℕ) (l : List WordToLayout) :
    List.Pairwise (· ≤ ·) (startTimes (mapWithIndex (fun i word =>
      { word with absoluteStartTime := some (s + (i : ℚ) * t),
                  duration := d }) k l)) := by
  have h1 := startTimes_mapWithIndex
    (f := fun i word => { word with absoluteStartTime := some (s + (i : ℚ) * t), duration := d })
    (F := fun i => s + (i : ℚ) * t) (fun i w => rfl) k l
  rw [h1]
  refine pairwise_mapWithIndex_mono ?_ k l
  intro i j hij
  have hc : (i : ℚ) ≤ (j : ℚ) := by exact_mod_cast hij
  show s + (i : ℚ) * t ≤ s + (j : ℚ) * t
  exact add_le_add_left (mul_le_mul_of_nonneg_right hc ht) s

/-- Words of a single timestamped segment are scheduled in non-decreasing
order (given a non-negative time scale and a well-formed segment). -/
theorem pairwise_segmentWordsWithTiming (timeScale : ℚ) (hts : 0 ≤ timeScale)
    (seg : TranscriptSegment) (hse : seg.start ≤ seg.endTime) :
    List.Pairwise (· ≤ ·) (startTimes (segmentWordsWithTiming timeScale seg)) := by
  simp only [segmentWordsWithTiming]
  apply pairwise_startTimes_affine
  have hmul : seg.start * timeScale ≤ seg.endTime * timeScale :=
    mul_le_mul_of_nonneg_right hse hts
  by_cases h : ((wordsOf seg.text).map parseStyledWord).length > 0
  · rw [if_pos h]
    apply div_nonneg
    · nlinarith
    · positivity
  · rw [if_neg h]

/-- Words of a single page are scheduled in non-decreasing order (given a
non-negative page duration). -/
theorem pairwise_pagedWordsWithTiming (pageDuration : ℚ) (hpd : 0 ≤ pageDuration)
    (pageIndex : ℕ) (pageWords : List WordToLayout) :
    List.Pairwise (· ≤ ·) (startTimes (pagedWordsWithTiming pageDuration pageIndex pageWords)) := by
  simp only [pagedWordsWithTiming]
  apply pairwise_startTimes_affine
  by_cases h : pageWords.length > 0
  · rw [if_pos h]
    apply div_nonneg
    · nlinarith
    · positivity
  · rw [if_neg h]

/-- The paged-mode total and per-page durations are non-negative when the
attached audio duration is. -/
theorem pagedPageDuration_nonneg (audioDuration : Option ℚ)
    (had : ∀ d, audioDuration = some d → 0 ≤ d) (allWords : List WordToLayout) :
    0 ≤ pagedPageDuration audioDuration allWords := by
  have h5 : (0 : ℚ) ≤ max 5000 ((allWords.length : ℚ) * 500) :=
    le_trans (by norm_num) (le_max_left 5000 _)
  have htot : 0 ≤ pagedTotalDuration audioDuration allWords := by
    rcases audioDuration with - | d
    · unfold pagedTotalDuration
      exact h5
    · have hd := had d rfl
      unfold pagedTotalDuration
      show (0 : ℚ) ≤ if d ≠ 0 then d * 1000 else max 5000 ((allWords.length : ℚ) * 500)
      by_cases h : d = 0
      · rw [if_neg (by simp [h])]
        exact h5
      · rw [if_pos h]
        positivity
  unfold pagedPageDuration
  by_cases h : (chunk allWords 5).length > 0
  · rw [if_pos h]
    positivity
  · rw [if_neg h]
    exact htot

/-- The cumulative preview timings form a non-decreasing chain (each delay
is positive). -/
theorem summaryWordTimings_chain (c : ℚ) (l : List WordToLayout) :
    List.Chain' (· ≤ ·) (summaryWordTimings c l) := by
  induction l generalizing c with
  | nil => simp [summaryWordTimings]
  | cons w ws ih =>
      have hd : 0 ≤ previewDelay w := by
        unfold previewDelay
        split <;> norm_num
      cases ws with
      | nil => simp [summaryWordTimings]
      | cons w2 ws2 =>
          rw [summaryWordTimings, summaryWordTimings]
          rw [List.chain'_cons]
          refine ⟨by linarith, ?_⟩
          rw [← summaryWordTimings]
          exact ih (c + previewDelay w)

/-- There is one preview timing per word. -/
theorem summaryWordTimings_length (c : ℚ) (l : List WordToLayout) :
    (summaryWordTimings c l).length = l.length := by
  induction l generalizing c with
  | nil => rfl
  | cons w ws ih => simp [summaryWordTimings, ih]

/-- Indexing a timing list of exactly the right length reads the list back. -/
theorem mapWithIndex_getD_eq_drop :
    ∀ (l : List WordToLayout) (T : List ℚ) (k : ℕ), T.length = k + l.length →
      mapWithIndex (fun i (_ : WordToLayout) => T.getD i 0) k l = T.drop k := by
  intro l
  induction l with
  | nil =>
      intro T k h
      simp only [List.length_nil, Nat.add_zero] at h
      rw [mapWithIndex, List.drop_eq_nil_of_le (le_of_eq h)]
  | cons a l ih =>
      intro T k h
      rw [mapWithIndex, ih T (k + 1) (by simp at h ⊢; omega)]
      have hk : k < T.length := by simp at h; omega
      rw [List.drop_eq_getElem_cons hk]
      congr 1
      exact List.getD_eq_getElem T 0 hk

/-- The preview start times are exactly the cumulative preview timings. -/
theorem startTimes_previewWordsWithTiming (allWords : List WordToLayout) :
    startTimes (previewWordsWithTiming allWords) = summaryWordTimings 0 allWords := by
  simp only [previewWordsWithTiming]
  have h1 := startTimes_mapWithIndex
    (f := fun i word => { word with absoluteStartTime := some ((summaryWordTimings 0 allWords).getD i 0), duration := some 250 })
    (F := fun i => (summaryWordTimings 0 allWords).getD i 0) (fun i w => rfl) 0 allWords
  rw [h1]
  rw [mapWithIndex_getD_eq_drop allWords _ 0
    (by rw [summaryWordTimings_length]; omega)]
  rfl

/-- C3: monotonic scheduling — in every timeline mode (timestamped, paged,
and preview/ambient), the `absoluteStartTime` values assigned to the words
of a single page or segment are non-decreasing in source word order.
The timestamped part assumes a non-negative time scale and a well-formed
segment (`start ≤ end`, the data-model invariant); the paged part assumes a
non-negative attached audio duration. -/
theorem c3_monotonic_scheduling :
    (∀ (timeScale : ℚ) (seg : TranscriptSegment), 0 ≤ timeScale → seg.start ≤ seg.endTime →
      List.Pairwise (· ≤ ·) (startTimes (segmentWordsWithTiming timeScale seg))) ∧
    (∀ (audioDuration : Option ℚ) (allWords : List WordToLayout),
      (∀ d, audioDuration = some d → 0 ≤ d) →
      ∀ page ∈ pagedPagesWithTiming audioDuration allWords,
        List.Pairwise (· ≤ ·) (startTimes page)) ∧
    (∀ allWords : List WordToLayout,
      List.Pairwise (· ≤ ·) (startTimes (previewWordsWithTiming allWords))) := by
  refine ⟨?_, ?_, ?_⟩
  · intro timeScale seg hts hse
    exact pairwise_segmentWordsWithTiming timeScale hts seg hse
  · intro audioDuration allWords had page hpage
    simp only [pagedPagesWithTiming] at hpage
    have hmem : ∀ (k : ℕ) (pages : List (List WordToLayout)),
        page ∈ mapWithIndex (fun pageIndex pageWords =>
          pagedWordsWithTiming (pagedPageDuration audioDuration allWords) pageIndex pageWords)
          k pages →
        ∃ i pw, page = pagedWordsWithTiming (pagedPageDuration audioDuration allWords) i pw := by
      intro k pages
      induction pages generalizing k with
      | nil => intro h; cases h
      | cons p ps ih =>
          intro h
          rcases List.mem_cons.mp h with h | h
          · exact ⟨k, p, h⟩
          · exact ih (k + 1) h
    obtain ⟨i, pw, rfl⟩ := hmem 0 (chunk allWords 5) hpage
    exact pairwise_pagedWordsWithTiming _
      (pagedPageDuration_nonneg audioDuration had allWords) i pw
  · intro allWords
    rw [startTimes_previewWordsWithTiming]
    exact List.chain'_iff_pairwise.mp (summaryWordTimings_chain 0 allWords)

/-- C3 concrete paged-mode words (three words, a single page). -/
def c3PagedWords : List WordToLayout := (wordsOf "one two three".toList).map parseStyledWord

/-- C3 concrete preview-mode words (punctuation exercising all delays). -/
def c3PreviewWords : List WordToLayout :=
  (wordsOf "first, second. third".toList).map parseStyledWord

/-- C3 witness: concrete instances for all three modes with every
hypothesis discharged. -/
theorem c3_monotonic_scheduling_witness :
    List.Pairwise (· ≤ ·) (startTimes (segmentWordsWithTiming 1
      { text := "hello brave world".toList, start := 0, endTime := 3 })) ∧
    List.Pairwise (· ≤ ·) (startTimes (pagedWordsWithTiming
      (pagedPageDuration (some 10) c3PagedWords) 0 c3PagedWords)) ∧
    List.Pairwise (· ≤ ·) (startTimes (previewWordsWithTiming c3PreviewWords)) :=
  ⟨c3_monotonic_scheduling.1 1
      { text := "hello brave world".toList, start := 0, endTime := 3 }
      (by norm_num) (by norm_num),
   c3_monotonic_scheduling.2.1 (some 10) c3PagedWords
      (by intro d hd; rw [← Option.some.inj hd]; norm_num)
      (pagedWordsWithTiming (pagedPageDuration (some 10) c3PagedWords) 0 c3PagedWords)
      (by
        have hchunk : chunk c3PagedWords 5 = [c3PagedWords] := by rfl
        simp only [pagedPagesWithTiming, hchunk, mapWithIndex]
        exact List.mem_singleton.mpr rfl),
   c3_monotonic_scheduling.2.2 c3PreviewWords⟩

/-- A visual theme (`THEME_CONFIG` entries). -/
structure ThemeConfig where
  baseColor : List Char
  highlightColor : List Char
  accentColor : List Char
deriving DecidableEq, Repr

/-- `THEME_CONFIG.Minimalist`. -/
def themeMinimalist : ThemeConfig :=
  { baseColor := "#FFFFFF".toList, highlightColor := "#FFE100".toList,
    accentColor := "#FF3333".toList }

/-- `THEME_CONFIG.Glitchy`. -/
def themeGlitchy : ThemeConfig :=
  { baseColor := "#00FF00".toList, highlightColor := "#FFFFFF".toList,
    accentColor := "#FF00FF".toList }

/-- `THEME_CONFIG.Retro`. -/
def themeRetro : ThemeConfig :=
  { baseColor := "#FFB86C".toList, highlightColor := "#FFFF00".toList,
    accentColor := "#FF5555".toList }

/-- The per-word activity computation of `renderPage`
(`KineticTypographyPlayer.tsx`, lines 742–760): `wordStartTime =
word.absoluteStartTime ?? 0`; words with negative local elapsed time are
skipped (`drawn = false`); a word is active when `word.duration` is truthy
and `0 ≤ wordElapsedTime < duration`. -/
structure WordFrameActive where
  drawn : Bool
  isActive : Bool
  activeProgress : ℚ
deriving DecidableEq, Repr

/-- See `WordFrameActive`. -/
def wordActiveState (word : WordToLayout) (elapsedTime : ℚ) : WordFrameActive :=
  let wordStartTime := word.absoluteStartTime.getD 0
  let wordElapsedTime := elapsedTime - wordStartTime
  if wordElapsedTime < 0 then
    { drawn := false, isActive := false, activeProgress := 0 }
  else
    match word.duration with
    | some d =>
        if d ≠ 0 then
          { drawn := true,
            isActive := decide (0 ≤ wordElapsedTime ∧ wordElapsedTime < d),
            activeProgress := wordElapsedTime / d }
        else { drawn := true, isActive := false, activeProgress := 0 }
    | none => { drawn := true, isActive := false, activeProgress := 0 }

/-- The word-level colour selection of `animateWord` (lines 819–823):
highlight colour when active, else accent colour for emphasized words, else
the theme base colour. -/
def wordBaseColor (theme : ThemeConfig) (word : WordToLayout) (isActive : Bool) : List Char :=
  let base := if word.isHighlight then theme.accentColor else theme.baseColor
  if isActive then theme.highlightColor else base

/-- The span-level colour selection of `animateWord` (line 830): the
highlight colour when active overrides a span-level colour, which overrides
the word-level colour. -/
def spanRenderColor (theme : ThemeConfig) (word : WordToLayout) (span : StyleSpan)
    (isActive : Bool) : List Char :=
  if isActive then theme.highlightColor
  else span.style.color.getD (wordBaseColor theme word isActive)

/-- The active-word bounce overlay of `animateWord` (lines 790–798): scale
ramps 1.0→1.15 over the first 20% of the active window, eases back over the
remaining 80%, clamped to never drop below 1. -/
def activeScaleOf (isActive : Bool) (activeProgress : ℚ) : ℚ :=
  if isActive then
    let s := if activeProgress < 0.2 then 1 + (activeProgress * 5) * 0.15
             else 1.15 - ((activeProgress - 0.2) * 1.25) * 0.15
    max 1 s
  else 1

/-- The C6 word: `absoluteStartTime = 1000` ms, `activeDuration = 500` ms. -/
def c6Word : WordToLayout :=
  { cleanText := "word".toList, isHighlight := false,
    spans := [{ text := "word".toList, style := {} }],
    absoluteStartTime := some 1000, duration := some 500 }

/-- C6: active-window correctness — the word with `absoluteStartTime =
1000` ms and `activeDuration = 500` ms is active exactly for `elapsedTime ∈
[1000, 1500)` (in particular inactive at exactly 1500), and while active
its resolved colour (word-level and span-level) is the theme's highlight
colour. -/
theorem c6_active_window (t : ℚ) :
    ((wordActiveState c6Word t).isActive = true ↔ 1000 ≤ t ∧ t < 1500) ∧
    (∀ theme : ThemeConfig, (wordActiveState c6Word t).isActive = true →
      wordBaseColor theme c6Word (wordActiveState c6Word t).isActive = theme.highlightColor ∧
      spanRenderColor theme c6Word { text := "word".toList, style := {} }
        (wordActiveState c6Word t).isActive = theme.highlightColor) := by
  have hiff : (wordActiveState c6Word t).isActive = true ↔ 1000 ≤ t ∧ t < 1500 := by
    simp only [wordActiveState, c6Word, Option.getD_some]
    by_cases h : t - 1000 < 0
    · rw [if_pos h]
      simp only [Bool.false_eq_true, false_iff]
      rintro ⟨h1, -⟩
      linarith
    · rw [if_neg h]
      norm_num
      intro hge
      constructor <;> intro <;> linarith
  refine ⟨hiff, ?_⟩
  intro theme hact
  rw [hact]
  unfold wordBaseColor spanRenderColor
  simp [c6Word]

/-- C6 witness: at `elapsedTime = 1200` ms the word is active and rendered
in the Minimalist theme's highlight colour. -/
theorem c6_active_window_witness :
    (wordActiveState c6Word 1200).isActive = true ∧
    wordBaseColor themeMinimalist c6Word (wordActiveState c6Word 1200).isActive =
      themeMinimalist.highlightColor :=
  ⟨(c6_active_window 1200).1.mpr ⟨by norm_num, by norm_num⟩,
   ((c6_active_window 1200).2 themeMinimalist
     ((c6_active_window 1200).1.mpr ⟨by norm_num, by norm_num⟩)).1⟩

/-- JavaScript `Math.round`: round half away from zero toward positive
infinity, i.e. `⌊x + 1/2⌋`. -/
def jsRound (x : ℚ) : ℤ := ⌊x + 1 / 2⌋

/-- The per-frame progress report of `animateScript` (lines 505–508 and
581–584): `Math.min(100, Math.round((actualElapsedTime / totalDuration) *
100))` — clamped from above only. -/
def reportProgress (actualElapsedTime totalDuration : ℚ) : ℤ :=
  min 100 (jsRound ((actualElapsedTime / totalDuration) * 100))

/-- C7 (counterexample): the claim says the reported progress is
`round(100·elapsed/totalDuration)` clamped to `[0, 100]` and hence never
negative; but the code has no lower clamp, so `elapsed = -1000` ms with
`totalDuration = 10000` ms reports `-10`. -/
theorem c7_progress_clamp_counterexample :
    reportProgress (-1000) 10000 = -10 ∧ (-10 : ℤ) < 0 := by
  constructor
  · unfold reportProgress jsRound
    norm_num
  · norm_num

/-- C7 (amended): on every frame the value passed to `onProgress` equals
`min(100, round(100 · elapsed / totalDuration))` — clamped from above
only.  It never exceeds 100, and it is non-negative whenever the elapsed
time is non-negative and the total duration is positive; a negative
elapsed time (possible when the audio clock fails to initialise) is
reported as a negative percentage. -/
theorem c7_progress_report_amended (elapsed totalDuration : ℚ) :
    reportProgress elapsed totalDuration ≤ 100 ∧
    (0 ≤ elapsed → 0 < totalDuration → 0 ≤ reportProgress elapsed totalDuration) := by
  constructor
  · exact min_le_left 100 _
  · intro he ht
    refine le_min (by norm_num) ?_
    unfold jsRound
    have hq : (0 : ℚ) ≤ (elapsed / totalDuration) * 100 := by positivity
    have : (0 : ℚ) ≤ (elapsed / totalDuration) * 100 + 1 / 2 := by linarith
    exact Int.le_floor.mpr (by exact_mod_cast this)

/-- C7 witness: midway through a 10-second session the reported progress is
within `[0, 100]`. -/
theorem c7_progress_report_amended_witness :
    reportProgress 5000 10000 ≤ 100 ∧ 0 ≤ reportProgress 5000 10000 :=
  ⟨(c7_progress_report_amended 5000 10000).1,
   (c7_progress_report_amended 5000 10000).2 (by norm_num) (by norm_num)⟩

/-- Elapsed-time computation of the timestamped-segments render loop
(lines 494–501): the audio clock when an audio context exists, else the
raw `performance.now()` value (not offset by any loop start time). -/
def segmentsElapsed (audioContextTime : Option ℚ) (audioStartTime perfNow : ℚ) : ℚ :=
  match audioContextTime with
  | some currentTime => (currentTime - audioStartTime) * 1000
  | none => perfNow

/-- Elapsed-time computation of the paged-mode render loop (lines
570–577): the audio clock when an audio context exists *and* an audio
source is attached, else the wall clock `time - startTime`. -/
def pagedElapsed (audioContextTime : Option ℚ) (hasAudioSrc : Bool)
    (audioStartTime frameTime loopStartTime : ℚ) : ℚ :=
  match audioContextTime, hasAudioSrc with
  | some currentTime, true => (currentTime - audioStartTime) * 1000
  | _, _ => frameTime - loopStartTime

/-- Elapsed-time computation of the preview/export fallback render loop
(lines 639–642): always the wall clock `time - startTime` (reduced modulo
the total duration only in preview mode, which is not the fallback at
issue here). -/
def previewElapsedBase (frameTime loopStartTime : ℚ) : ℚ :=
  frameTime - loopStartTime

/-- C8 (counterexample): in timestamped-segments mode with no audio
context, a frame at wall-clock time 5000 ms in a render loop that started
at 1000 ms uses elapsed = 5000 (raw `performance.now()`), not the claimed
`now - loopStartTime = 4000`. -/
theorem c8_wall_clock_fallback_counterexample :
    segmentsElapsed none 0 5000 = 5000 ∧ (5000 : ℚ) ≠ 5000 - 1000 := by
  constructor
  · rfl
  · norm_num

/-- C8 (amended): when no audio clock is used, the paged and
preview/export render loops measure elapsed time as `now - loopStartTime`
(the paged loop also falls back to it when an audio context exists but no
audio source is attached); the timestamped-segments loop instead uses the
raw `performance.now()` value, with no loop-start offset. -/
theorem c8_wall_clock_fallback_amended :
    (∀ audioStartTime perfNow : ℚ, segmentsElapsed none audioStartTime perfNow = perfNow) ∧
    (∀ (hasAudioSrc : Bool) (audioStartTime frameTime loopStartTime : ℚ),
      pagedElapsed none hasAudioSrc audioStartTime frameTime loopStartTime =
        frameTime - loopStartTime) ∧
    (∀ currentTime audioStartTime frameTime loopStartTime : ℚ,
      pagedElapsed (some currentTime) false audioStartTime frameTime loopStartTime =
        frameTime - loopStartTime) ∧
    (∀ frameTime loopStartTime : ℚ,
      previewElapsedBase frameTime loopStartTime = frameTime - loopStartTime) := by
  refine ⟨fun _ _ => rfl, fun hasSrc _ _ _ => ?_, fun _ _ _ _ => rfl, fun _ _ => rfl⟩
  cases hasSrc <;> rfl

/-- Outcome of the recorder's `onstop` handler: either `onComplete` with an
artifact of the given size, or `onError` with a message. -/
inductive StopOutcome
  | complete (blobSize : ℕ)
  | error (message : List Char)
deriving DecidableEq, Repr

/-- The `ondataavailable` accumulation (lines 363–366): only events with
`data.size > 0` are pushed onto `chunks`. -/
def accumulateChunks (eventSizes : List ℕ) : List ℕ :=
  eventSizes.filter (fun size => size > 0)

/-- The `onstop` handler of `setupAndStartRecorder` (lines 368–378): the
accumulated chunks are concatenated into one blob (its size is the sum of
the chunk sizes); a zero-size blob throws, which is caught and reported
via `onError`; otherwise `onComplete` receives the artifact. -/
def onRecorderStop (chunkSizes : List ℕ) : StopOutcome :=
  let blobSize := chunkSizes.sum
  if blobSize = 0 then .error "Failed to finalize video file.".toList
  else .complete blobSize

/-- C9: empty-artifact failure — when the concatenation of the accumulated
chunks has size zero the session reports failure via `onError` (and
`onComplete` is never called); `onComplete` is invoked only with an
artifact assembled from a non-empty blob.  Stated for any
`ondataavailable` event sequence. -/
theorem c9_empty_artifact_failure (eventSizes : List ℕ) :
    ((accumulateChunks eventSizes).sum = 0 →
      onRecorderStop (accumulateChunks eventSizes) =
        .error "Failed to finalize video file.".toList) ∧
    (∀ size, onRecorderStop (accumulateChunks eventSizes) = .complete size → 0 < size) := by
  constructor
  · intro h
    unfold onRecorderStop
    rw [if_pos h]
  · intro size h
    unfold onRecorderStop at h
    by_cases hz : (accumulateChunks eventSizes).sum = 0
    · rw [if_pos hz] at h
      cases h
    · rw [if_neg hz] at h
      cases h
      omega

/-- C9 witness: a recorder session whose only data events are empty
resolves to `onError`. -/
theorem c9_empty_artifact_failure_witness :
    onRecorderStop (accumulateChunks [0, 0]) =
      .error "Failed to finalize video file.".toList :=
  (c9_empty_artifact_failure [0, 0]).1 (by decide)

/-- A wrapped line (`Line` in the source): its words and measured width. -/
structure Line where
  words : List WordToLayout
  width : ℚ
deriving DecidableEq, Repr

/-- The greedy line-wrapping pass of `calculateLayoutForWords` (lines
684–709): accumulate words onto the current line while the joined text
still fits `maxWidth`; once adding a word would overflow and the line is
non-empty, close it and start a new line with that word; flush the last
line. -/
def wrapWords (measure : ℚ → List Char → ℚ) (fontSize maxWidth : ℚ)
    (words : List WordToLayout) : List Line :=
  let step := fun (acc : List Line × List WordToLayout) (word : WordToLayout) =>
    let testLineWords := acc.2 ++ [word]
    let testLineText := joinWithSpace (testLineWords.map (fun w => w.cleanText))
    if measure fontSize testLineText > maxWidth ∧ acc.2 ≠ [] then
      let currentLineText := joinWithSpace (acc.2.map (fun w => w.cleanText))
      (acc.1 ++ [{ words := acc.2, width := measure fontSize currentLineText }], [word])
    else (acc.1, acc.2 ++ [word])
  let r := words.foldl step ([], [])
  if r.2 ≠ [] then
    r.1 ++ [{ words := r.2,
              width := measure fontSize (joinWithSpace (r.2.map (fun w => w.cleanText))) }]
  else r.1

/-- Result of the shrink-to-fit loop: the last wrapped lines, the total
height they occupy, the font size after the loop (the source's
`finalFontSize`, already decremented when the last pass overflowed), and
the loop counter. -/
structure FitResult where
  lines : List Line
  totalHeight : ℚ
  finalFontSize : ℚ
  loops : ℕ
deriving DecidableEq, Repr

/-- One body execution of the shrink-to-fit do-while loop of
`calculateLayoutForWords` (lines 679–713): wrap at the current font size,
compute the total height (`lines.length * fontSize * lineHeightRatio`),
decrement the font size by 2 when the height overflows the limit, and bump
the loop counter. -/
def fitIteration (measure : ℚ → List Char → ℚ) (maxWidth limit lineHeightRatio : ℚ)
    (words : List WordToLayout) (finalFontSize : ℚ) (loops : ℕ) : FitResult :=
  let lines := wrapWords measure finalFontSize maxWidth words
  let totalHeight := (lines.length : ℚ) * (finalFontSize * lineHeightRatio)
  let fontSize' := if totalHeight > limit then finalFontSize - 2 else finalFontSize
  { lines := lines, totalHeight := totalHeight,
    finalFontSize := fontSize', loops := loops + 1 }

/-- The shrink-to-fit do-while loop (lines 679–714): run an iteration, then
repeat while the height still overflows, the (decremented) font size is
above the floor of 10, and fewer than 20 iterations have run.

`fuel` makes the recursion structural; the entry point supplies
`fuel = 20` with `loops = 0` and the loop always exits by `loops = 20`
while `fuel ≥ 1`, so the zero-fuel case is unreachable (it returns the
iteration result like an exit). -/
def fitLoop (measure : ℚ → List Char → ℚ) (maxWidth limit lineHeightRatio : ℚ)
    (words : List WordToLayout) : ℕ → ℚ → ℕ → FitResult
  | 0, finalFontSize, loops =>
      fitIteration measure maxWidth limit lineHeightRatio words finalFontSize loops
  | fuel + 1, finalFontSize, loops =>
      let r := fitIteration measure maxWidth limit lineHeightRatio words finalFontSize loops
      if r.totalHeight > limit ∧ r.finalFontSize > 10 ∧ r.loops < 20 then
        fitLoop measure maxWidth limit lineHeightRatio words fuel r.finalFontSize r.loops
      else r

/-- The fit portion of `calculateLayoutForWords` (lines 670–714):
`padding = 0.1 * w`, wrap width `w - 2*padding`, height limit
`h - 2*padding`, `lineHeightRatio = initialLineHeight / initialSize`,
starting from the initial font size. -/
def calculateLayoutFit (measure : ℚ → List Char → ℚ) (w h : ℚ)
    (initialSize initialLineHeight : ℚ) (words : List WordToLayout) : FitResult :=
  let padding := w * 0.1
  let lineHeightRatio := initialLineHeight / initialSize
  let maxWidth := w - padding * 2
  fitLoop measure maxWidth (h - padding * 2) lineHeightRatio words 20 initialSize 0

/-- Font size class (`fontSize` prop). -/
inductive FontSizeClass | Small | Medium | Large
deriving DecidableEq, Repr

/-- Font family (`fontFamily` prop). -/
inductive FontFamily | Sans | Serif | Handwritten | Round | Dongle | Pen
deriving DecidableEq, Repr

/-- Nominal size/line-height pair (`FONT_CONFIG`, lines 62–66). -/
structure FontSizeConfig where
  size : ℚ
  lineHeight : ℚ
deriving DecidableEq, Repr

/-- `FONT_CONFIG` (lines 62–66). -/
def FONT_CONFIG : FontSizeClass → FontSizeConfig
  | .Small => { size := 24, lineHeight := 40 }
  | .Medium => { size := 32, lineHeight := 50 }
  | .Large => { size := 40, lineHeight := 60 }

/-- Family-specific size compensation (`animateScript`, lines 430–435). -/
def adjustedFontConfig (fontFamily : FontFamily) (fontSize : FontSizeClass) : FontSizeConfig :=
  let config := FONT_CONFIG fontSize
  match fontFamily with
  | .Dongle => { size := config.size * 2, lineHeight := config.lineHeight * 1.5 }
  | .Pen => { size := config.size * 1.5, lineHeight := config.lineHeight * 1.2 }
  | _ => config

/-- C5 counterexample text measure: a monospace-style measure, width
proportional to font size and character count. -/
def c5Measure : ℚ → List Char → ℚ := fun fontSize text => fontSize * (text.length : ℚ)

/-- C5 counterexample words: two words on a tiny canvas. -/
def c5Words : List WordToLayout := (wordsOf "hello hello".toList).map parseStyledWord

/-- The single C5 counterexample word, as parsed. -/
def c5w : WordToLayout :=
  { cleanText := ['h','e','l','l','o'], isHighlight := false,
    spans := [{ text := ['h','e','l','l','o'], style := {} }] }

/-- `c5Words` is two copies of that word. -/
theorem c5Words_eq : c5Words = [c5w, c5w] := by decide

/-- At any font size of at least 42, the counterexample canvas wraps the
two words onto two separate lines. -/
theorem c5_wrap (fs : ℚ) (h : 42 ≤ fs) :
    wrapWords c5Measure fs 80 c5Words =
      [{ words := [c5w], width := fs * 5 }, { words := [c5w], width := fs * 5 }] := by
  have h11 : (80 : ℚ) < fs * 11 := by nlinarith
  have hlen2 : (joinWithSpace [['h','e','l','l','o'], ['h','e','l','l','o']]).length = 11 := by
    decide
  have hlen1 : (joinWithSpace [['h','e','l','l','o']]).length = 5 := by decide
  rw [c5Words_eq]
  simp only [wrapWords, List.foldl_cons, List.foldl_nil, List.map_cons, List.map_nil,
    c5Measure, c5w]
  norm_num [hlen2, hlen1, h11]

/-- Running the fit loop on the C5 instance: as long as every font size
visited stays at least 42 nothing ever fits, so the loop burns all its
iterations and stops at the cap with the font size down by `2·fuel`. -/
theorem c5_fitLoop_run :
    ∀ fuel : ℕ, 1 ≤ fuel → ∀ (loops : ℕ) (fs : ℚ), fuel + loops = 20 →
      42 ≤ fs - 2 * ((fuel : ℚ) - 1) →
      (fitLoop c5Measure 80 80 (9 / 8) c5Words fuel fs loops).totalHeight =
          2 * ((fs - 2 * ((fuel : ℚ) - 1)) * (9 / 8)) ∧
      (fitLoop c5Measure 80 80 (9 / 8) c5Words fuel fs loops).finalFontSize =
          fs - 2 * (fuel : ℚ) ∧
      (fitLoop c5Measure 80 80 (9 / 8) c5Words fuel fs loops).loops = 20 := by
  intro fuel
  induction fuel with
  | zero => intro h1; exact absurd h1 (by norm_num)
  | succ n ih =>
      intro h1 loops fs hsum hfs
      have hfs42 : 42 ≤ fs := by push_cast at hfs; nlinarith [Nat.zero_le n]
      have hwrap := c5_wrap fs hfs42
      have hthv : ((wrapWords c5Measure fs 80 c5Words).length : ℚ) * (fs * (9 / 8)) =
          2 * (fs * (9 / 8)) := by rw [hwrap]; norm_num
      have hth : 2 * (fs * (9 / 8)) > 80 := by nlinarith
      rcases Nat.eq_zero_or_pos n with hn | hn
      · subst hn
        have hl : loops = 19 := by omega
        subst hl
        rw [fitLoop]
        rw [if_neg]
        · refine ⟨?_, ?_, ?_⟩
          · simp only [fitIteration, hthv]
            push_cast
            ring_nf
          · simp only [fitIteration, hthv]
            rw [if_pos hth]
            push_cast
            ring
          · simp [fitIteration]
        · rintro ⟨-, -, hlt⟩
          simp [fitIteration] at hlt
      · rw [fitLoop]
        rw [if_pos]
        · have hrec := ih hn (loops + 1) (fs - 2) (by omega)
            (by push_cast at hfs ⊢; nlinarith)
          have heq : (fitIteration c5Measure 80 80 (9 / 8) c5Words fs loops).finalFontSize
              = fs - 2 := by
            simp only [fitIteration, hthv]
            rw [if_pos hth]
          have heq2 : (fitIteration c5Measure 80 80 (9 / 8) c5Words fs loops).loops
              = loops + 1 := by simp [fitIteration]
          rw [heq, heq2]
          obtain ⟨ht, hf, hl⟩ := hrec
          refine ⟨?_, ?_, hl⟩
          · rw [ht]; push_cast; ring_nf
          · rw [hf]; push_cast; ring
        · refine ⟨?_, ?_, ?_⟩
          · simp only [fitIteration, hthv]
            exact hth
          · simp only [fitIteration, hthv]
            rw [if_pos hth]
            push_cast at hfs
            nlinarith
          · simp only [fitIteration]
            omega

/-- General exit property of the fit loop: started with `fuel + loops = 20`
and at least one unit of fuel, it returns after at most 20 iterations, and
at exit either the height fits, or the font size is at the floor of 10 or
below, or the 20-iteration cap was hit. -/
theorem fitLoop_exit (measure : ℚ → List Char → ℚ) (maxWidth limit lineHeightRatio : ℚ)
    (words : List WordToLayout) :
    ∀ fuel : ℕ, 1 ≤ fuel → ∀ (loops : ℕ) (fs : ℚ), fuel + loops = 20 →
      ((fitLoop measure maxWidth limit lineHeightRatio words fuel fs loops).totalHeight ≤ limit ∨
       (fitLoop measure maxWidth limit lineHeightRatio words fuel fs loops).finalFontSize ≤ 10 ∨
       (fitLoop measure maxWidth limit lineHeightRatio words fuel fs loops).loops = 20) ∧
      (fitLoop measure maxWidth limit lineHeightRatio words fuel fs loops).loops ≤ 20 := by
  intro fuel
  induction fuel with
  | zero => intro h1; exact absurd h1 (by norm_num)
  | succ n ih =>
      intro h1 loops fs hsum
      rw [fitLoop]
      split
      · rename_i hcond
        have hloops : (fitIteration measure maxWidth limit lineHeightRatio words fs loops).loops
            = loops + 1 := by simp [fitIteration]
        have hn : 1 ≤ n := by
          rcases hcond with ⟨-, -, hlt⟩
          rw [hloops] at hlt
          omega
        exact ih hn (fitIteration measure maxWidth limit lineHeightRatio words fs loops).loops
          _ (by rw [hloops]; omega)
      · rename_i hcond
        push_neg at hcond
        have hloops : (fitIteration measure maxWidth limit lineHeightRatio words fs loops).loops
            = loops + 1 := by simp [fitIteration]
        constructor
        · by_cases hth :
            (fitIteration measure maxWidth limit lineHeightRatio words fs loops).totalHeight ≤ limit
          · exact Or.inl hth
          · by_cases hfs :
              (fitIteration measure maxWidth limit lineHeightRatio words fs loops).finalFontSize ≤ 10
            · exact Or.inr (Or.inl hfs)
            · refine Or.inr (Or.inr ?_)
              have := hcond (lt_of_not_le hth) (lt_of_not_le hfs)
              rw [hloops] at this ⊢
              omega
        · rw [hloops]
          omega

/-- C5 (counterexample): on a 100×100 canvas with two words, a monospace
measure, and the Dongle/Large font configuration (initial size 80,
line height 90), the shrink-to-fit loop exhausts its 20-iteration cap and
returns at font size 40 — well above the floor of 10 — with a total height
of 94.5, which still exceeds the canvas height minus padding (80); so the
returned layout neither fits nor has its font size reduced to the floor. -/
theorem c5_layout_fit_counterexample :
    (100 : ℚ) ≤ 100 ∧ c5Words ≠ [] ∧
    (calculateLayoutFit c5Measure 100 100 (adjustedFontConfig .Dongle .Large).size
      (adjustedFontConfig .Dongle .Large).lineHeight c5Words).totalHeight >
        100 - (100 * 0.1) * 2 ∧
    (calculateLayoutFit c5Measure 100 100 (adjustedFontConfig .Dongle .Large).size
      (adjustedFontConfig .Dongle .Large).lineHeight c5Words).finalFontSize = 40 ∧
    ¬ ((40 : ℚ) ≤ 10) := by
  have key := c5_fitLoop_run 20 (by norm_num) 0 80 (by norm_num) (by push_cast; norm_num)
  have hb : calculateLayoutFit c5Measure 100 100 (adjustedFontConfig .Dongle .Large).size
      (adjustedFontConfig .Dongle .Large).lineHeight c5Words =
      fitLoop c5Measure 80 80 (9 / 8) c5Words 20 80 0 := by
    simp only [calculateLayoutFit, adjustedFontConfig, FONT_CONFIG]
    norm_num
  obtain ⟨ht, hf, -⟩ := key
  refine ⟨le_refl _, by decide, ?_, ?_, by norm_num⟩
  · rw [hb, ht]
    push_cast
    norm_num
  · rw [hb, hf]
    push_cast
    norm_num

/-- C5 (amended): for every canvas (in particular any canvas of size at
least 100×100) and every (in particular non-empty) word list, the
shrink-to-fit loop terminates after at most 20 iterations, and the layout
it returns either has total height (`lineCount × lineHeight`) not
exceeding the canvas height minus twice the padding, or has its font size
at the minimum floor of 10 or below, or stopped because the 20-iteration
cap was reached (in which case the font size may still be far above the
floor). -/
theorem c5_layout_fit_amended (measure : ℚ → List Char → ℚ)
    (w h initialSize initialLineHeight : ℚ) (words : List WordToLayout)
    (hw : 100 ≤ w) (hh : 100 ≤ h) (hne : words ≠ []) :
    ((calculateLayoutFit measure w h initialSize initialLineHeight words).totalHeight ≤
        h - (w * 0.1) * 2 ∨
     (calculateLayoutFit measure w h initialSize initialLineHeight words).finalFontSize ≤ 10 ∨
     (calculateLayoutFit measure w h initialSize initialLineHeight words).loops = 20) ∧
    (calculateLayoutFit measure w h initialSize initialLineHeight words).loops ≤ 20 := by
  simp only [calculateLayoutFit]
  exact fitLoop_exit measure (w - w * 0.1 * 2) (h - w * 0.1 * 2)
    (initialLineHeight / initialSize) words 20 (by norm_num) 0 initialSize (by norm_num)

/-- C5 witness: the amended property at the concrete counterexample
instance. -/
theorem c5_layout_fit_amended_witness :
    ((calculateLayoutFit c5Measure 100 100 80 90 c5Words).totalHeight ≤ 100 - (100 * 0.1) * 2 ∨
     (calculateLayoutFit c5Measure 100 100 80 90 c5Words).finalFontSize ≤ 10 ∨
     (calculateLayoutFit c5Measure 100 100 80 90 c5Words).loops = 20) ∧
    (calculateLayoutFit c5Measure 100 100 80 90 c5Words).loops ≤ 20 :=
  c5_layout_fit_amended c5Measure 100 100 80 90 c5Words (by norm_num) (by norm_num) (by decide)

/-- The dangling Korean modifiers checked by `repairKoreanSentence`
(`geminiService`, line 75). -/
def danglingModifiers : List Char := ['한', '인', '의', '던', '는', '을', '를']

/-- The noun endings appended to repair a dangling modifier (line 82). -/
def nounEndings : List (List Char) :=
  [" 결과다.".toList, " 상태다.".toList, " 착각이다.".toList, " 전략이다.".toList]

/-- The characters accepted as a proper sentence ending (line 85). -/
def sentenceEndChars : List Char := ['.', '!', '?', '*', '다', '요', '음', '임']

/-- Step 1 of `repairKoreanSentence` (lines 56–66): balance an odd number
of asterisks — drop a trailing one, else append one at the end. -/
def repairBalance (repaired : List Char) : List Char :=
  if countStars repaired % 2 ≠ 0 then
    if repaired.getLast? = some '*' then repaired.dropLast else repaired ++ ['*']
  else repaired

/-- Step 2 of `repairKoreanSentence` (lines 68–72): strip asterisks that
bold the entire sentence. -/
def repairStripBold (repaired : List Char) : List Char :=
  if repaired.head? = some '*' ∧ repaired.getLast? = some '*' ∧ repaired.length > 10 then
    (repaired.drop 1).dropLast
  else repaired

/-- Step 3 of `repairKoreanSentence` (lines 74–89): append a random noun
ending after a dangling modifier, or force a period when the text does not
look sentence-final (`rEnding` models the `Math.random()` pick among the
four noun endings). -/
def repairEnding (repaired : List Char) (rEnding : ℕ) : List Char :=
  let lastChar := repaired.getLast?
  let effectiveLastChar :=
    if lastChar = some '*' then repaired.dropLast.getLast? else lastChar
  let isDangling : Bool :=
    match effectiveLastChar with
    | some c => danglingModifiers.contains c
    | none => false
  let isSentenceEnd : Bool :=
    match effectiveLastChar with
    | some c => sentenceEndChars.contains c
    | none => false
  if isDangling then repaired ++ nounEndings.getD (rEnding % 4) []
  else if isSentenceEnd = false then
    if lastChar ≠ some '*' then repaired ++ ['.'] else repaired
  else repaired

/-- Embedding of `repairKoreanSentence` (`geminiService`, lines 53–91):
trim, then the three repair steps in source order. -/
def repairKoreanSentence (text : List Char) (rEnding : ℕ) : List Char :=
  repairEnding (repairStripBold (repairBalance (jsTrim text))) rEnding

/-- The word-character class of the fallback-highlight regex
`[\w가-힣]` (line 155): ASCII letters, digits, underscore, and the
Hangul syllables block. -/
def isWordChar (c : Char) : Bool :=
  ('a' ≤ c ∧ c ≤ 'z') ∨ ('A' ≤ c ∧ c ≤ 'Z') ∨ ('0' ≤ c ∧ c ≤ '9') ∨ c = '_' ∨
  ('가' ≤ c ∧ c ≤ '힣')

/-- Embedding of the anchored match
`^([^\w가-힣]*)([\w가-힣]+)([^\w가-힣]*)$`
(line 155): succeeds exactly when the word's word-characters form one
non-empty contiguous block, returning (punctuation) prefix, core and
suffix. -/
def splitPunct (w : List Char) : Option (List Char × List Char × List Char) :=
  let pre := w.takeWhile (fun c => ¬ isWordChar c)
  let rest := w.dropWhile (fun c => ¬ isWordChar c)
  let core := rest.takeWhile (fun c => isWordChar c)
  let suf := rest.dropWhile (fun c => isWordChar c)
  if core ≠ [] ∧ suf.all (fun c => ¬ isWordChar c) then some (pre, core, suf) else none

/-- Script language selector of `generateAutopsyScript`. -/
inductive ScriptLanguage | Korean | English
deriving DecidableEq, Repr

/-- The fallback-highlight phase of `generateAutopsyScript` (lines
135–168): when the processed text carries no asterisk at all, split it on
single spaces, pick a random "meaty" word (length > 2) — or a random
middle word when none qualifies — and wrap its word-character core (or,
failing the punctuation match, the whole word) in asterisks; otherwise
return the trimmed text.  `rPick` models the random candidate pick and
`rMid` the random middle-word fallback. -/
def highlightFallback (text : List Char) (rPick rMid : ℕ) : List Char :=
  if '*' ∉ text then
    let words := splitOnChar ' ' text
    if words.length > 2 then
      let candidates := (mapWithIndex (fun i w => (i, w)) 0 words).filter
        (fun item => item.2.length > 2)
      let targetIndex :=
        if candidates.length > 0 then (candidates.getD (rPick % candidates.length) (0, [])).1
        else rMid % (words.length - 2) + 1
      let targetWord := words.getD targetIndex []
      let newWord :=
        match splitPunct targetWord with
        | some (pre, core, suf) => pre ++ '*' :: (core ++ '*' :: suf)
        | none => '*' :: (targetWord ++ ['*'])
      joinWithSpace (words.set targetIndex newWord)
    else jsTrim text
  else jsTrim text

/-- The post-processing `generateAutopsyScript` applies to the model's
text (`geminiService`, lines 121–168): Korean repair or English
asterisk-balancing, then the fallback highlight. -/
def generateAutopsyScriptPost (language : ScriptLanguage) (modelText : List Char)
    (rEnding rPick rMid : ℕ) : List Char :=
  let text :=
    match language with
    | .Korean => repairKoreanSentence modelText rEnding
    | .English =>
        let openCount := countStars modelText
        if openCount % 2 ≠ 0 then modelText ++ ['*'] else modelText
  highlightFallback text rPick rMid

/-- Trimming only removes whitespace, so it preserves the asterisk count. -/
theorem countStars_jsTrim (l : List Char) : countStars (jsTrim l) = countStars l := by
  have key : ∀ m : List Char, countStars (m.dropWhile isJsWhitespace) = countStars m := by
    intro m
    have hsplit : m.takeWhile isJsWhitespace ++ m.dropWhile isJsWhitespace = m :=
      List.takeWhile_append_dropWhile _ _
    have hzero : countStars (m.takeWhile isJsWhitespace) = 0 := by
      rw [countStars, List.count_eq_zero]
      intro hmem
      have := List.mem_takeWhile_imp hmem
      simp [isJsWhitespace] at this
    calc countStars (m.dropWhile isJsWhitespace)
        = countStars (m.takeWhile isJsWhitespace) + countStars (m.dropWhile isJsWhitespace) := by
          rw [hzero]; omega
      _ = countStars m := by rw [countStars, countStars, countStars, ← List.count_append, hsplit]
  unfold jsTrim
  rw [countStars, List.count_reverse, ← countStars, key, countStars, List.count_reverse,
    ← countStars, key]

/-- Dropping a trailing asterisk lowers the count by exactly one. -/
theorem countStars_dropLast_star {l : List Char} (h : l.getLast? = some '*') :
    countStars l = countStars l.dropLast + 1 := by
  have hne : l ≠ [] := by rintro rfl; simp at h
  have hlast : l.getLast hne = '*' := by
    rw [List.getLast?_eq_getLast l hne] at h
    exact Option.some.inj h
  conv_lhs => rw [← List.dropLast_append_getLast hne]
  rw [countStars, List.count_append, hlast]
  simp [countStars]

/-- A leading asterisk contributes exactly one to the count. -/
theorem countStars_head_star {l : List Char} (h : l.head? = some '*') :
    countStars l = countStars l.tail + 1 := by
  match l with
  | [] => simp at h
  | c :: t =>
    have : c = '*' := by simpa using h
    subst this
    simp [countStars, List.count_cons_self]

/-- Every noun ending is asterisk-free. -/
theorem countStars_nounEndings (i : ℕ) : countStars (nounEndings.getD i []) = 0 := by
  match i with
  | 0 => decide
  | 1 => decide
  | 2 => decide
  | 3 => decide
  | n + 4 =>
      have : nounEndings.getD (n + 4) [] = [] := by
        simp [nounEndings, List.getD]
      rw [this]
      decide

/-- Step 1 always leaves an even asterisk count. -/
theorem repairBalance_even (l : List Char) :
    countStars (repairBalance l) % 2 = 0 := by
  unfold repairBalance
  by_cases hodd : countStars l % 2 ≠ 0
  · rw [if_pos hodd]
    by_cases hlast : l.getLast? = some '*'
    · rw [if_pos hlast]
      have := countStars_dropLast_star hlast
      omega
    · rw [if_neg hlast]
      rw [countStars, List.count_append]
      have hone : List.count '*' ['*'] = 1 := by decide
      rw [hone]
      rw [countStars] at hodd
      omega
  · rw [if_neg hodd]
    omega

/-- Step 2 preserves an even asterisk count. -/
theorem repairStripBold_even {l : List Char} (h : countStars l % 2 = 0) :
    countStars (repairStripBold l) % 2 = 0 := by
  unfold repairStripBold
  by_cases hbold : l.head? = some '*' ∧ l.getLast? = some '*' ∧ l.length > 10
  · rw [if_pos hbold]
    obtain ⟨hh, hl, hlen⟩ := hbold
    have hhead := countStars_head_star hh
    have hlast_tail : l.tail.getLast? = some '*' := by
      match l, hh, hl, hlen with
      | [c], hh, hl, hlen => simp at hlen
      | c :: d :: t, hh, hl, hlen =>
          rw [List.getLast?_cons_cons] at hl
          simpa using hl
    have hdrop := countStars_dropLast_star hlast_tail
    rw [List.drop_one]
    omega
  · rw [if_neg hbold]
    exact h

/-- Step 3 preserves an even asterisk count (the appended endings are
asterisk-free). -/
theorem repairEnding_even {l : List Char} (h : countStars l % 2 = 0) (rEnding : ℕ) :
    countStars (repairEnding l rEnding) % 2 = 0 := by
  have happend : ∀ e : List Char, countStars e = 0 → countStars (l ++ e) % 2 = 0 := by
    intro e he
    rw [countStars, List.count_append, ← countStars, ← countStars, he]
    omega
  have hdot : countStars ['.'] = 0 := by decide
  simp only [repairEnding]
  repeat' split
  all_goals first
    | exact h
    | exact happend _ (countStars_nounEndings _)
    | exact happend _ hdot

/-- The Korean repair always returns balanced (even-count) asterisks. -/
theorem repairKoreanSentence_even (text : List Char) (rEnding : ℕ) :
    countStars (repairKoreanSentence text rEnding) % 2 = 0 :=
  repairEnding_even (repairStripBold_even (repairBalance_even (jsTrim text))) rEnding

/-- `splitOnChar` never returns an empty list of pieces. -/
theorem splitOnChar_ne_nil (sep : Char) : ∀ l : List Char, splitOnChar sep l ≠ [] := by
  intro l
  match l with
  | [] => simp [splitOnChar]
  | c :: rest =>
      rw [splitOnChar]
      split <;> simp

/-- Every character of every piece of a split occurs in the original
string. -/
theorem mem_splitOnChar_subset {sep : Char} :
    ∀ (l p : List Char), p ∈ splitOnChar sep l → ∀ c ∈ p, c ∈ l := by
  intro l
  induction l with
  | nil =>
      intro p hp c hc
      simp [splitOnChar] at hp
      subst hp
      cases hc
  | cons a rest ih =>
      intro p hp c hc
      rw [splitOnChar] at hp
      by_cases ha : a = sep
      · rw [if_pos ha] at hp
        rcases List.mem_cons.mp hp with rfl | hp
        · cases hc
        · exact List.mem_cons_of_mem a (ih p hp c hc)
      · rw [if_neg ha] at hp
        rcases List.mem_cons.mp hp with rfl | hp
        · rcases List.mem_cons.mp hc with rfl | hc
          · exact List.mem_cons_self c rest
          · have hne := splitOnChar_ne_nil sep rest
            have hhead : (splitOnChar sep rest).headD [] ∈ splitOnChar sep rest := by
              match hm : splitOnChar sep rest with
              | [] => exact absurd hm hne
              | q :: qs => exact List.mem_cons_self q qs
            exact List.mem_cons_of_mem a (ih _ hhead c hc)
        · have hp' : p ∈ splitOnChar sep rest := List.mem_of_mem_tail hp
          exact List.mem_cons_of_mem a (ih p hp' c hc)

/-- The asterisk count of a space-join is the sum of the pieces' counts. -/
theorem countStars_joinWithSpace : ∀ L : List (List Char),
    countStars (joinWithSpace L) = (L.map countStars).sum
  | [] => by simp [joinWithSpace, countStars]
  | [w] => by simp [joinWithSpace]
  | w :: w2 :: ws => by
      have hjoin : joinWithSpace (w :: w2 :: ws) = w ++ ' ' :: joinWithSpace (w2 :: ws) := rfl
      rw [hjoin, countStars, List.count_append]
      have hsp : List.count '*' (' ' :: joinWithSpace (w2 :: ws)) =
          List.count '*' (joinWithSpace (w2 :: ws)) := by
        rw [List.count_cons]
        simp
      rw [hsp, ← countStars, ← countStars, countStars_joinWithSpace (w2 :: ws)]
      simp

/-- A sum of even numbers is even. -/
theorem sum_mod_two_eq_zero : ∀ {L : List ℕ}, (∀ x ∈ L, x % 2 = 0) → L.sum % 2 = 0 := by
  intro L
  induction L with
  | nil => intro; rfl
  | cons a t ih =>
      intro h
      rw [List.sum_cons]
      have ha := h a (List.mem_cons_self a t)
      have ht := ih (fun x hx => h x (List.mem_cons_of_mem a hx))
      omega

/-- The pieces of a successful punctuation split are sublists of the
word. -/
theorem splitPunct_sublists {w pre core suf : List Char}
    (h : splitPunct w = some (pre, core, suf)) :
    pre.Sublist w ∧ core.Sublist w ∧ suf.Sublist w := by
  simp only [splitPunct] at h
  split at h
  · simp only [Option.some.injEq, Prod.mk.injEq] at h
    obtain ⟨rfl, rfl, rfl⟩ := h
    refine ⟨List.takeWhile_sublist _, ?_, ?_⟩
    · exact (List.takeWhile_sublist _).trans (List.dropWhile_sublist _)
    · exact (List.dropWhile_sublist _).trans (List.dropWhile_sublist _)
  · cases h

/-- The fallback highlight keeps the asterisk count even: it either leaves
a balanced text untouched (trimming aside) or adds exactly two asterisks
to an asterisk-free text. -/
theorem highlightFallback_even (text : List Char) (rPick rMid : ℕ)
    (h : countStars text % 2 = 0) :
    countStars (highlightFallback text rPick rMid) % 2 = 0 := by
  simp only [highlightFallback]
  split
  · rename_i hnostar
    split
    · rename_i hlen
      set words := splitOnChar ' ' text with hwords
      have hpart : ∀ p ∈ words, countStars p = 0 := by
        intro p hp
        rw [countStars, List.count_eq_zero]
        intro hmem
        exact hnostar (mem_splitOnChar_subset text p hp '*' hmem)
      set targetIndex := (if
          ((mapWithIndex (fun i w => (i, w)) 0 words).filter
            (fun item => item.2.length > 2)).length > 0 then
          (((mapWithIndex (fun i w => (i, w)) 0 words).filter
            (fun item => item.2.length > 2)).getD
            (rPick % ((mapWithIndex (fun i w => (i, w)) 0 words).filter
              (fun item => item.2.length > 2)).length) (0, [])).1
        else rMid % (words.length - 2) + 1) with htarget
      have htw : countStars (words.getD targetIndex []) = 0 := by
        by_cases hlt : targetIndex < words.length
        · rw [List.getD_eq_getElem words [] hlt]
          exact hpart _ (List.getElem_mem hlt)
        · rw [List.getD_eq_default words [] (by omega)]
          rfl
      set targetWord := words.getD targetIndex [] with htwdef
      have hnew : ∀ nw, (nw = (match splitPunct targetWord with
          | some (pre, core, suf) => pre ++ '*' :: (core ++ '*' :: suf)
          | none => '*' :: (targetWord ++ ['*']))) → countStars nw = 2 := by
        intro nw hnw
        match hsp : splitPunct targetWord with
        | some (pre, core, suf) =>
            rw [hsp] at hnw
            obtain ⟨hs1, hs2, hs3⟩ := splitPunct_sublists hsp
            have h1 : countStars pre = 0 := by
              rw [countStars, List.count_eq_zero] at htw ⊢
              exact fun hm => htw (hs1.subset hm)
            have h2 : countStars core = 0 := by
              rw [countStars, List.count_eq_zero] at htw ⊢
              exact fun hm => htw (hs2.subset hm)
            have h3 : countStars suf = 0 := by
              rw [countStars, List.count_eq_zero] at htw ⊢
              exact fun hm => htw (hs3.subset hm)
            rw [hnw, countStars, List.count_append, List.count_cons, List.count_append,
              List.count_cons]
            rw [countStars] at h1 h2 h3
            rw [h1, h2, h3]
            norm_num
        | none =>
            rw [hsp] at hnw
            rw [hnw, countStars, List.count_cons, List.count_append]
            rw [countStars] at htw
            rw [htw]
            norm_num
      rw [countStars_joinWithSpace]
      apply sum_mod_two_eq_zero
      intro x hx
      obtain ⟨p, hpmem, rfl⟩ := List.mem_map.mp hx
      rcases List.mem_or_eq_of_mem_set hpmem with hpin | rfl
      · rw [hpart p hpin]
      · rw [hnew _ rfl]
    · rw [countStars_jsTrim]
      exact h
  · rw [countStars_jsTrim]
    exact h

/-- C10: balanced emphasis markers — every script string returned by the
text-generation post-processing contains an even number of asterisks, for
both the Korean path (via `repairKoreanSentence`) and the English path,
including the fallback that wraps a randomly chosen word in asterisks when
the model emitted none. -/
theorem c10_balanced_asterisks (language : ScriptLanguage) (modelText : List Char)
    (rEnding rPick rMid : ℕ) :
    countStars (generateAutopsyScriptPost language modelText rEnding rPick rMid) % 2 = 0 := by
  simp only [generateAutopsyScriptPost]
  apply highlightFallback_even
  cases language
  · exact repairKoreanSentence_even modelText rEnding
  · simp only []
    by_cases hodd : countStars modelText % 2 ≠ 0
    · rw [if_pos hodd]
      rw [countStars, List.count_append]
      have hone : List.count '*' ['*'] = 1 := by decide
      rw [hone]
      rw [countStars] at hodd
      omega
    · rw [if_neg hodd]
      omega
